import Mathlib

/-!
Verification development for the conditional-equation extraction core
(`src/library/simplifier/ceq.cpp`): the extractor `to_ceqs` and the
validity predicate `is_ceq`, embedded shallowly over the expression
data model of the specification.
-/

set_option maxHeartbeats 1000000
set_option linter.unnecessarySeqFocus false

namespace Ceq

/-- Modelled from the spec: hierarchical identifiers produced by the
fresh-name machinery (`name g_Hc("Hc")`, `name(g_Hc, m_idx)`); the name
type itself is an external collaborator not under `src/`. -/
inductive name where
  | anonymous : name
  | str (p : name) (s : String) : name
  | num (p : name) (k : Nat) : name
  deriving DecidableEq

/-- The auxiliary base name for if-then-else hypotheses (`static name g_Hc("Hc")`). -/
def g_Hc : name := name.str name.anonymous "Hc"

/-- Modelled from the spec: the expression data model of section 3
(Variable / Equality / Negation / Conjunction / UniversalBinder /
Conditional, plus constants, applications and function abstractions used
by proof terms); the kernel expression representation is not under `src/`. -/
inductive expr where
  | var (idx : Nat) : expr
  | const (n : name) : expr
  | eq (ty lhs rhs : expr) : expr
  | neg (a : expr) : expr
  | conj (a b : expr) : expr
  | pi (n : name) (dom body : expr) : expr
  | lam (n : name) (dom body : expr) : expr
  | ite (c a b : expr) : expr
  | app (f a : expr) : expr
  deriving DecidableEq

/-- The kernel constant `Bool` (the type of propositions in this system). -/
def cBool : expr := expr.const (name.str name.anonymous "Bool")

/-- The kernel constant `True`. -/
def cTrue : expr := expr.const (name.str name.anonymous "true")

/-- The kernel constant `False`. -/
def cFalse : expr := expr.const (name.str name.anonymous "false")

/-- Modelled from the spec: an ordered sequence of (name, type) bindings,
extended only by pushing as binders are entered. -/
def context := List (name × expr)

/-- The empty context. -/
def context.empty : context := []

/-- Extend a context with one binding (`extend(ctx, name, domain)`). -/
def extend (c : context) (n : name) (t : expr) : context := (n, t) :: c

/-- Modelled from the spec: the read-only environment capability, exposing the
feature flag lookup (`env->imported`) and the proposition predicate
(`env->is_proposition(type, context)`). -/
structure environment where
  imported : String → Bool
  is_proposition : expr → context → Bool

/-- Modelled from the spec: free-variable lifting with an explicit binder-depth
offset threaded through the traversal; variables with index at least the
offset are shifted by `d`, the offset grows by one under a binder body. -/
def lift_aux : expr → Nat → Nat → expr
  | expr.var i, s, d => if s ≤ i then expr.var (i + d) else expr.var i
  | expr.const n, _, _ => expr.const n
  | expr.eq t l r, s, d => expr.eq (lift_aux t s d) (lift_aux l s d) (lift_aux r s d)
  | expr.neg a, s, d => expr.neg (lift_aux a s d)
  | expr.conj a b, s, d => expr.conj (lift_aux a s d) (lift_aux b s d)
  | expr.pi n dom b, s, d => expr.pi n (lift_aux dom s d) (lift_aux b (s + 1) d)
  | expr.lam n dom b, s, d => expr.lam n (lift_aux dom s d) (lift_aux b (s + 1) d)
  | expr.ite c a b, s, d => expr.ite (lift_aux c s d) (lift_aux a s d) (lift_aux b s d)
  | expr.app f a, s, d => expr.app (lift_aux f s d) (lift_aux a s d)

/-- Modelled from the spec: `lift_free_vars(e, d)` shifts every free-variable
index of `e` by `d`. -/
def lift_free_vars (e : expr) (d : Nat) : expr := lift_aux e 0 d

/-- Node count of an expression (termination measure for the extractor). -/
def expr.size : expr → Nat
  | expr.var _ => 1
  | expr.const _ => 1
  | expr.eq t l r => t.size + l.size + r.size + 1
  | expr.neg a => a.size + 1
  | expr.conj a b => a.size + b.size + 1
  | expr.pi _ dom b => dom.size + b.size + 1
  | expr.lam _ dom b => dom.size + b.size + 1
  | expr.ite c a b => c.size + a.size + b.size + 1
  | expr.app f a => f.size + a.size + 1

/-- Modelled from the spec: proof constructor "from `¬a` derive `a = False`"
(`mk_eqf_intro_th`). -/
def mk_eqf_intro_th (a H : expr) : expr :=
  expr.app (expr.app (expr.const (name.str name.anonymous "eqf_intro")) a) H

/-- Modelled from the spec: proof constructor "from `a ∧ b` derive `a`"
(`mk_and_eliml_th`). -/
def mk_and_eliml_th (a b H : expr) : expr :=
  expr.app (expr.app (expr.app (expr.const (name.str name.anonymous "and_eliml")) a) b) H

/-- Modelled from the spec: proof constructor "from `a ∧ b` derive `b`"
(`mk_and_elimr_th`). -/
def mk_and_elimr_th (a b H : expr) : expr :=
  expr.app (expr.app (expr.app (expr.const (name.str name.anonymous "and_elimr")) a) b) H

/-- Modelled from the spec: proof constructor "from `e` derive `e = True`"
(`mk_eqt_intro_th`). -/
def mk_eqt_intro_th (e H : expr) : expr :=
  expr.app (expr.app (expr.const (name.str name.anonymous "eqt_intro")) e) H

/-- Modelled from the spec: proof constructor for the then-branch of a
conditional (`mk_if_imp_then_th`). -/
def mk_if_imp_then_th (c a b H Hc : expr) : expr :=
  expr.app (expr.app (expr.app (expr.app (expr.app
    (expr.const (name.str name.anonymous "if_imp_then")) c) a) b) H) Hc

/-- Modelled from the spec: proof constructor for the else-branch of a
conditional (`mk_if_imp_else_th`). -/
def mk_if_imp_else_th (c a b H Hc : expr) : expr :=
  expr.app (expr.app (expr.app (expr.app (expr.app
    (expr.const (name.str name.anonymous "if_imp_else")) c) a) b) H) Hc

/-- Fresh-name generation (`to_ceqs_fn::mk_aux_name`), with the call-scoped
counter `m_idx` made an explicit argument: at counter 0 it returns the base
name `g_Hc`, afterwards the suffixed name `g_Hc.m_idx`, incrementing. -/
def mk_aux_name (idx : Nat) : name × Nat :=
  if idx = 0 then (g_Hc, 1) else (name.num g_Hc idx, idx + 1)

/-- The recursive case analysis of the extractor (`to_ceqs_fn::apply`), with
the call-scoped counter threaded explicitly: it returns the candidate list
and the final counter.  The order of the two recursive calls in the
conjunction case (left first) and in the conditional case (then first,
matching the statement order of the source) fixes the counter threading. -/
def to_ceqs_apply (env : environment) : expr → expr → Nat → List (expr × expr) × Nat
  | expr.eq t l r, H, idx => ([(expr.eq t l r, H)], idx)
  | expr.neg a, H, idx =>
      ([(expr.eq cBool a cFalse, mk_eqf_intro_th a H)], idx)
  | expr.conj a1 a2, H, idx =>
      let r1 := to_ceqs_apply env a1 (mk_and_eliml_th a1 a2 H) idx
      let r2 := to_ceqs_apply env a2 (mk_and_elimr_th a1 a2 H) r1.2
      (r1.1 ++ r2.1, r2.2)
  | expr.pi n d b, H, idx =>
      let ceqs := to_ceqs_apply env b (expr.app (lift_free_vars H 1) (expr.var 0)) idx
      match ceqs.1 with
      | [p] =>
          if p.1 = b then ([(expr.pi n d b, H)], ceqs.2)
          else (List.map (fun q => (expr.pi n d q.1, expr.lam n d q.2)) [p], ceqs.2)
      | l => (List.map (fun q => (expr.pi n d q.1, expr.lam n d q.2)) l, ceqs.2)
  | expr.ite c a b, H, idx =>
      if env.imported "if_then_else" then
        let not_c := expr.neg c
        let c1 := lift_free_vars c 1
        let a1 := lift_free_vars a 1
        let b1 := lift_free_vars b 1
        let H1 := lift_free_vars H 1
        let then_r := to_ceqs_apply env a1 (mk_if_imp_then_th c1 a1 b1 H1 (expr.var 0)) idx
        let else_r := to_ceqs_apply env b1 (mk_if_imp_else_th c1 a1 b1 H1 (expr.var 0)) then_r.2
        let r := mk_aux_name else_r.2
        let new_then := List.map (fun q => (expr.pi r.1 c q.1, expr.lam r.1 c q.2)) then_r.1
        let new_else := List.map (fun q => (expr.pi r.1 not_c q.1, expr.lam r.1 not_c q.2)) else_r.1
        (new_then ++ new_else, r.2)
      else
        ([(expr.eq cBool (expr.ite c a b) cTrue, mk_eqt_intro_th (expr.ite c a b) H)], idx)
  | e, H, idx =>
      ([(expr.eq cBool e cTrue, mk_eqt_intro_th e H)], idx)
  termination_by e _ _ => e.size
  decreasing_by
    all_goals
      have hsz : ∀ (e : expr) (s d : Nat), (lift_aux e s d).size = e.size := by
        intro e
        induction e <;> intro s d <;>
          simp only [lift_aux, expr.size, *] <;> split <;> rfl
      simp only [expr.size, lift_free_vars, hsz]
      omega

/-- Leading-binder stripping loop of `is_ceq`: walk the leading `pi` binders,
pushing `env.is_proposition(domain, ctx)` for each onto the flag buffer
`in_lhs` and extending the context, returning the buffer and the residual
body (the `while (is_pi(e))` loop of the source). -/
def strip_ceq (env : environment) : expr → context → List Bool → List Bool × expr
  | expr.pi n d b, ctx, acc => strip_ceq env b (extend ctx n d) (acc ++ [env.is_proposition d ctx])
  | e, _, acc => (acc, e)

/-- The per-variable marking step of `is_ceq`'s left-hand-side traversal:
for `Variable(i)` seen at binder-depth `o`, if the depth-adjusted index
`i - o` points at one of the stripped outer binders, set that binder's flag
(position `size - (i - o) - 1`); otherwise (bound inside the lhs, or a free
variable beyond all stripped binders) leave the buffer unchanged. -/
def mark_var (o i : Nat) (s : List Bool) : List Bool :=
  if o ≤ i then
    if i - o < s.length then s.set (s.length - (i - o) - 1) true else s
  else s

/-- Modelled from the spec: the generic traversal utility (`for_each`)
specialised to the marking visitor of `is_ceq`: visit every sub-expression
with its accumulated binder-depth offset (the offset grows by one under a
binder body), threading the flag buffer through `mark_var` at each variable. -/
def mark_lhs : expr → Nat → List Bool → List Bool
  | expr.var i, o, s => mark_var o i s
  | expr.const _, _, s => s
  | expr.eq t l r, o, s => mark_lhs r o (mark_lhs l o (mark_lhs t o s))
  | expr.neg a, o, s => mark_lhs a o s
  | expr.conj a b, o, s => mark_lhs b o (mark_lhs a o s)
  | expr.pi _ d b, o, s => mark_lhs b (o + 1) (mark_lhs d o s)
  | expr.lam _ d b, o, s => mark_lhs b (o + 1) (mark_lhs d o s)
  | expr.ite c a b, o, s => mark_lhs b o (mark_lhs a o (mark_lhs c o s))
  | expr.app f a, o, s => mark_lhs a o (mark_lhs f o s)

/-- The validity predicate `is_ceq(env, e)`: strip leading binders recording
proposition flags, require the residual body to be an equality, mark every
binder whose variable occurs in the left-hand side, and accept iff no flag
is left `false`. -/
def is_ceq (env : environment) (e : expr) : Bool :=
  let r := strip_ceq env e context.empty []
  match r.2 with
  | expr.eq _ lhs _ => (mark_lhs lhs 0 r.1).all (fun b => b)
  | _ => false

/-- The extractor `to_ceqs(env, e, H)`: run the case analysis with the
call-scoped counter initialised to 0 and keep, in order, the candidates
whose equation passes `is_ceq`. -/
def to_ceqs (env : environment) (e H : expr) : List (expr × expr) :=
  List.filter (fun p => is_ceq env p.1) (to_ceqs_apply env e H 0).1

/-- The leading-binder telescope of a formula: the list of (name, domain)
binders in outermost-first order, and the residual body. -/
def binder_telescope : expr → List (name × expr) × expr
  | expr.pi n d b =>
      let r := binder_telescope b
      ((n, d) :: r.1, r.2)
  | e => ([], e)

/-- Initial "resolved" flags as the spec words them: one flag per stripped
binder, in order, set to `env.isProposition(domain, contextSoFar)`, the
context being extended after each binder. -/
def init_flags (env : environment) : List (name × expr) → context → List Bool
  | [], _ => []
  | (n, d) :: bs, ctx => env.is_proposition d ctx :: init_flags env bs (extend ctx n d)

/-- Does some `Variable` occurrence in `e`, adjusted by the binder depth `o`
entered inside `e`, refer to the outer variable `k` (de Bruijn index `k`
counted from the root of `e`)? -/
def lhs_mentions : expr → Nat → Nat → Bool
  | expr.var i, o, k => i == o + k
  | expr.const _, _, _ => false
  | expr.eq t l r, o, k => lhs_mentions t o k || lhs_mentions l o k || lhs_mentions r o k
  | expr.neg a, o, k => lhs_mentions a o k
  | expr.conj a b, o, k => lhs_mentions a o k || lhs_mentions b o k
  | expr.pi _ d b, o, k => lhs_mentions d o k || lhs_mentions b (o + 1) k
  | expr.lam _ d b, o, k => lhs_mentions d o k || lhs_mentions b (o + 1) k
  | expr.ite c a b, o, k => lhs_mentions c o k || lhs_mentions a o k || lhs_mentions b o k
  | expr.app f a, o, k => lhs_mentions f o k || lhs_mentions a o k

/-- Declarative validity check following the words of the specification and
of claim C2: strip the leading `UniversalBinder`s recording flags
initialised to `env.isProposition` of each domain in the context built so
far; the body must be an `Equality`; binder `i` (outermost-first among `n`
binders) is resolved iff its flag was initialised true or some variable in
the left-hand side, adjusted by the depth entered inside the left-hand
side, refers to it (outer index `n - 1 - i`); all binders must be resolved. -/
def is_ceq_spec (env : environment) (e : expr) : Bool :=
  let r := binder_telescope e
  match r.2 with
  | expr.eq _ lhs _ =>
      (List.range r.1.length).all (fun i =>
        (init_flags env r.1 context.empty).getD i false
          || lhs_mentions lhs 0 (r.1.length - 1 - i))
  | _ => false

/-- Shapes of `e` that reach the extractor's default case: not an equality,
negation, conjunction or universal binder, and a conditional only when the
`if_then_else` extension is not loaded. -/
def default_shape (env : environment) : expr → Bool
  | expr.eq _ _ _ => false
  | expr.neg _ => false
  | expr.conj _ _ => false
  | expr.pi _ _ _ => false
  | expr.ite _ _ _ => !env.imported "if_then_else"
  | _ => true

/-- Wrap a body under a telescope of universal binders (outermost first). -/
def mk_pis : List (name × expr) → expr → expr
  | [], e => e
  | (n, d) :: bs, e => expr.pi n d (mk_pis bs e)

/-- The binder name at the head of an expression (for binder-name
observations on extractor outputs). -/
def head_binder_name : expr → name
  | expr.pi n _ _ => n
  | expr.lam n _ _ => n
  | _ => name.anonymous

/-- Short string-based names for concrete test expressions. -/
def nm (s : String) : name := name.str name.anonymous s

/-- A concrete environment: extension not loaded, nothing is a proposition. -/
def envFF : environment := ⟨fun _ => false, fun _ _ => false⟩

/-- A concrete environment: extension loaded, everything is a proposition. -/
def envTT : environment := ⟨fun _ => true, fun _ _ => true⟩

/-- A concrete environment: extension not loaded, everything is a proposition. -/
def envFT : environment := ⟨fun _ => false, fun _ _ => true⟩

/-- The value of the call-scoped counter after the two branch recursions of
the conditional case (the state at which `mk_aux_name` is drawn on line
`name Hc = mk_aux_name();` of the source). -/
def ite_branch_counter (env : environment) (c a b H : expr) (idx : Nat) : Nat :=
  (to_ceqs_apply env (lift_free_vars b 1)
    (mk_if_imp_else_th (lift_free_vars c 1) (lift_free_vars a 1) (lift_free_vars b 1)
      (lift_free_vars H 1) (expr.var 0))
    (to_ceqs_apply env (lift_free_vars a 1)
      (mk_if_imp_then_th (lift_free_vars c 1) (lift_free_vars a 1) (lift_free_vars b 1)
        (lift_free_vars H 1) (expr.var 0)) idx).2).2

theorem mk_aux_name_snd (i : Nat) : (mk_aux_name i).2 = i + 1 := by
  unfold mk_aux_name
  split <;> simp [*]

theorem mk_aux_name_fst_ne (i j : Nat) (h : i < j) :
    (mk_aux_name i).1 ≠ (mk_aux_name j).1 := by
  unfold mk_aux_name
  rcases Nat.eq_zero_or_pos i with hi | hi
  · subst hi
    have hj : ¬ j = 0 := by omega
    simp [hj, g_Hc]
  · have h1 : ¬ i = 0 := by omega
    have h2 : ¬ j = 0 := by omega
    simp [h1, h2]
    omega

theorem to_ceqs_apply_mono (env : environment) (e H : expr) (idx : Nat) :
    idx ≤ (to_ceqs_apply env e H idx).2 := by
  induction e, H, idx using to_ceqs_apply.induct env with
  | case1 t l r H idx => simp [to_ceqs_apply]
  | case2 a H idx => simp [to_ceqs_apply]
  | case3 a1 a2 H idx r1 ih1 ih2 =>
      unfold_let r1 at ih2
      simp only [to_ceqs_apply]
      omega
  | case4 n d H idx p ceqs hc ih =>
      unfold_let ceqs at hc
      simp only [to_ceqs_apply, hc]
      split <;> simpa using ih
  | case5 n d b H idx ceqs p hc hne ih =>
      unfold_let ceqs at hc
      simp only [to_ceqs_apply, hc]
      split <;> simpa using ih
  | case6 n d b H idx ceqs hns ih =>
      simp only [to_ceqs_apply]
      simpa using ih
  | case7 c a b H idx himp c1 a1 b1 H1 then_r ih1 ih1b ih2 =>
      unfold_let c1 a1 b1 H1 then_r at ih2
      simp only [to_ceqs_apply, himp, if_true, mk_aux_name_snd]
      omega
  | case8 c a b H idx himp =>
      simp only [Bool.not_eq_true] at himp
      simp [to_ceqs_apply, himp]
  | case9 e H idx h1 h2 h3 h4 h5 =>
      cases e with
      | eq t l r => exact absurd rfl (h1 t l r)
      | neg a => exact absurd rfl (h2 a)
      | conj a1 a2 => exact absurd rfl (h3 a1 a2)
      | pi n d b => exact absurd rfl (h4 n d b)
      | ite c a b => exact absurd rfl (h5 c a b)
      | var i => simp [to_ceqs_apply]
      | const n => simp [to_ceqs_apply]
      | lam n d b => simp [to_ceqs_apply]
      | app f a => simp [to_ceqs_apply]

theorem mark_lhs_length (e : expr) : ∀ (o : Nat) (s : List Bool),
    (mark_lhs e o s).length = s.length := by
  induction e <;> intro o s <;>
    simp only [mark_lhs, mark_var, *]
  split <;> (try split) <;> simp [List.length_set]

theorem mark_var_getD (o i : Nat) (s : List Bool) (j : Nat) (h : j < s.length) :
    (mark_var o i s).getD j false
      = (s.getD j false || decide (i = o + (s.length - 1 - j))) := by
  unfold mark_var
  by_cases ho : o ≤ i
  · by_cases hv : i - o < s.length
    · simp only [ho, hv, if_true]
      have hlen : j < (s.set (s.length - (i - o) - 1) true).length := by
        simpa [List.length_set] using h
      rw [List.getD_eq_getElem _ _ hlen, List.getElem_set, List.getD_eq_getElem _ _ h]
      by_cases heq : s.length - (i - o) - 1 = j
      · have hd : decide (i = o + (s.length - 1 - j)) = true := by
          rw [decide_eq_true_eq]
          omega
        simp [heq, hd]
      · have hd : decide (i = o + (s.length - 1 - j)) = false := by
          rw [decide_eq_false_iff_not]
          omega
        simp [heq, hd]
    · have hd : decide (i = o + (s.length - 1 - j)) = false := by
        rw [decide_eq_false_iff_not]
        omega
      simp [ho, hv, hd]
  · have hd : decide (i = o + (s.length - 1 - j)) = false := by
      rw [decide_eq_false_iff_not]
      omega
    simp [ho, hd]

theorem mark_lhs_getD (e : expr) : ∀ (o : Nat) (s : List Bool) (j : Nat), j < s.length →
    (mark_lhs e o s).getD j false
      = (s.getD j false || lhs_mentions e o (s.length - 1 - j)) := by
  induction e with
  | var i =>
      intro o s j h
      simpa [mark_lhs, lhs_mentions] using mark_var_getD o i s j h
  | const n =>
      intro o s j h
      simp [mark_lhs, lhs_mentions]
  | eq t l r iht ihl ihr =>
      intro o s j h
      have h1 : j < (mark_lhs t o s).length := by rw [mark_lhs_length]; exact h
      have h2 : j < (mark_lhs l o (mark_lhs t o s)).length := by
        rw [mark_lhs_length, mark_lhs_length]; exact h
      simp only [mark_lhs, lhs_mentions]
      rw [ihr _ _ _ h2, ihl _ _ _ h1, iht _ _ _ h]
      simp [mark_lhs_length, Bool.or_assoc]
  | neg a iha =>
      intro o s j h
      simp only [mark_lhs, lhs_mentions]
      rw [iha _ _ _ h]
  | conj a b iha ihb =>
      intro o s j h
      have h1 : j < (mark_lhs a o s).length := by rw [mark_lhs_length]; exact h
      simp only [mark_lhs, lhs_mentions]
      rw [ihb _ _ _ h1, iha _ _ _ h]
      simp [mark_lhs_length, Bool.or_assoc]
  | pi n d b ihd ihb =>
      intro o s j h
      have h1 : j < (mark_lhs d o s).length := by rw [mark_lhs_length]; exact h
      simp only [mark_lhs, lhs_mentions]
      rw [ihb _ _ _ h1, ihd _ _ _ h]
      simp [mark_lhs_length, Bool.or_assoc]
  | lam n d b ihd ihb =>
      intro o s j h
      have h1 : j < (mark_lhs d o s).length := by rw [mark_lhs_length]; exact h
      simp only [mark_lhs, lhs_mentions]
      rw [ihb _ _ _ h1, ihd _ _ _ h]
      simp [mark_lhs_length, Bool.or_assoc]
  | ite c a b ihc iha ihb =>
      intro o s j h
      have h1 : j < (mark_lhs c o s).length := by rw [mark_lhs_length]; exact h
      have h2 : j < (mark_lhs a o (mark_lhs c o s)).length := by
        rw [mark_lhs_length, mark_lhs_length]; exact h
      simp only [mark_lhs, lhs_mentions]
      rw [ihb _ _ _ h2, iha _ _ _ h1, ihc _ _ _ h]
      simp [mark_lhs_length, Bool.or_assoc]
  | app f a ihf iha =>
      intro o s j h
      have h1 : j < (mark_lhs f o s).length := by rw [mark_lhs_length]; exact h
      simp only [mark_lhs, lhs_mentions]
      rw [iha _ _ _ h1, ihf _ _ _ h]
      simp [mark_lhs_length, Bool.or_assoc]

theorem all_getD (l : List Bool) :
    ((l.all fun b => b) = true) ↔ (∀ j, j < l.length → l.getD j false = true) := by
  rw [List.all_eq_true]
  constructor
  · intro hall j hj
    rw [List.getD_eq_getElem _ _ hj]
    exact hall _ (List.getElem_mem hj)
  · intro hj x hx
    obtain ⟨n, rfl⟩ := List.mem_iff_get.1 hx
    have h2 := hj n n.isLt
    rw [List.getD_eq_getElem _ _ n.isLt] at h2
    simpa [List.get_eq_getElem] using h2

theorem init_flags_length (env : environment) (bs : List (name × expr)) :
    ∀ ctx : context, (init_flags env bs ctx).length = bs.length := by
  induction bs with
  | nil => intro ctx; rfl
  | cons hd tl ih =>
      intro ctx
      obtain ⟨n, d⟩ := hd
      simp [init_flags, ih]

theorem strip_ceq_spec (env : environment) (e : expr) :
    ∀ (ctx : context) (acc : List Bool),
      strip_ceq env e ctx acc
        = (acc ++ init_flags env (binder_telescope e).1 ctx, (binder_telescope e).2) := by
  induction e with
  | pi n d b ihd ihb =>
      intro ctx acc
      simp only [strip_ceq, binder_telescope, init_flags]
      rw [ihb]
      simp
  | var i => intro ctx acc; simp [strip_ceq, binder_telescope, init_flags]
  | const m => intro ctx acc; simp [strip_ceq, binder_telescope, init_flags]
  | eq t l r iht ihl ihr => intro ctx acc; simp [strip_ceq, binder_telescope, init_flags]
  | neg a iha => intro ctx acc; simp [strip_ceq, binder_telescope, init_flags]
  | conj a b iha ihb => intro ctx acc; simp [strip_ceq, binder_telescope, init_flags]
  | lam n d b ihd ihb => intro ctx acc; simp [strip_ceq, binder_telescope, init_flags]
  | ite c a b ihc iha ihb => intro ctx acc; simp [strip_ceq, binder_telescope, init_flags]
  | app f a ihf iha => intro ctx acc; simp [strip_ceq, binder_telescope, init_flags]

theorem is_ceq_eq_true (env : environment) (t l r : expr) :
    is_ceq env (expr.eq t l r) = true := by
  have hlen : (mark_lhs l 0 ([] : List Bool)).length = 0 := by
    rw [mark_lhs_length]
    rfl
  have hnil : mark_lhs l 0 ([] : List Bool) = [] :=
    List.eq_nil_of_length_eq_zero hlen
  simp [is_ceq, strip_ceq, hnil]

theorem to_ceqs_eq_singleton (env : environment) (t l r H : expr) :
    to_ceqs env (expr.eq t l r) H = [(expr.eq t l r, H)] := by
  unfold to_ceqs
  simp [to_ceqs_apply, List.filter, is_ceq_eq_true env t l r]

theorem is_ceq_spec_agrees (env : environment) (e : expr) :
    is_ceq env e = is_ceq_spec env e := by
  rcases hbt : binder_telescope e with ⟨bs, body⟩
  simp only [is_ceq, is_ceq_spec, strip_ceq_spec, hbt, List.nil_append]
  cases body with
  | eq t lhs r =>
      have hflen : (init_flags env bs context.empty).length = bs.length :=
        init_flags_length env bs context.empty
      have key : ∀ j, j < bs.length →
          (mark_lhs lhs 0 (init_flags env bs context.empty)).getD j false
            = ((init_flags env bs context.empty).getD j false
                || lhs_mentions lhs 0 (bs.length - 1 - j)) := by
        intro j hj
        rw [mark_lhs_getD lhs 0 (init_flags env bs context.empty) j (by rw [hflen]; exact hj),
          hflen]
      rw [Bool.eq_iff_iff, all_getD, List.all_eq_true]
      constructor
      · intro hL x hx
        rw [List.mem_range] at hx
        have hx2 := hL x (by rw [mark_lhs_length, hflen]; exact hx)
        rw [key x hx] at hx2
        simpa using hx2
      · intro hR j hj
        rw [mark_lhs_length, hflen] at hj
        rw [key j hj]
        have hj2 := hR j (List.mem_range.mpr hj)
        simpa using hj2
  | var i => rfl
  | const m => rfl
  | neg a => rfl
  | conj a b => rfl
  | pi n d b => rfl
  | lam n d b => rfl
  | ite c a b => rfl
  | app f a => rfl

/-- Claim C1: every pair produced by `to_ceqs(env, e, H)` has an equation
component on which `is_ceq(env, ·)` returns true; the surviving pairs form an
order-preserving sublist of the candidate sequence produced by the case
analysis; and every candidate whose equation passes the checker survives. -/
theorem c1_filter_sound (env : environment) (e H : expr) :
    (∀ p ∈ to_ceqs env e H, is_ceq env p.1 = true)
      ∧ List.Sublist (to_ceqs env e H) (to_ceqs_apply env e H 0).1
      ∧ (∀ p ∈ (to_ceqs_apply env e H 0).1, is_ceq env p.1 = true → p ∈ to_ceqs env e H) := by
  unfold to_ceqs
  exact ⟨fun p hp => (List.mem_filter.mp hp).2, List.filter_sublist _,
    fun p hp hc => List.mem_filter.mpr ⟨hp, hc⟩⟩

/-- Witness for C1: concrete instance on the negation of an opaque
proposition, whose single candidate `P = False` passes the checker. -/
theorem c1_filter_sound_witness :
    is_ceq envFF (expr.eq cBool (expr.const (nm "P")) cFalse) = true
      ∧ List.Sublist (to_ceqs envFF (expr.neg (expr.const (nm "P"))) (expr.const (nm "h")))
          (to_ceqs_apply envFF (expr.neg (expr.const (nm "P"))) (expr.const (nm "h")) 0).1 :=
  ⟨(c1_filter_sound envFF (expr.neg (expr.const (nm "P"))) (expr.const (nm "h"))).1
      (expr.eq cBool (expr.const (nm "P")) cFalse,
        mk_eqf_intro_th (expr.const (nm "P")) (expr.const (nm "h")))
      (by simp [to_ceqs, to_ceqs_apply, is_ceq_eq_true]),
    (c1_filter_sound envFF (expr.neg (expr.const (nm "P"))) (expr.const (nm "h"))).2.1⟩

/-- Claim C2: `is_ceq(env, e)` returns true iff, after stripping the leading
universal binders (flags initialised to `env.isProposition` of each domain in
the context built so far), the body is an equality and every stripped binder
is resolved, a binder being resolved exactly when its flag was initialised
true or some variable in the left-hand side, with index adjusted by the
binder depth entered inside the left-hand side, refers to it. -/
theorem c2_is_ceq_characterisation (env : environment) (e : expr) :
    is_ceq env e = is_ceq_spec env e :=
  is_ceq_spec_agrees env e

/-- Claim C6: if `e` is already an equality, `to_ceqs(env, e, H)` is exactly
the singleton `[(e, H)]` (the pair always passes the validity checker). -/
theorem c6_eq_passthrough (env : environment) (t l r H : expr) :
    to_ceqs env (expr.eq t l r) H = [(expr.eq t l r, H)] :=
  to_ceqs_eq_singleton env t l r H

/-- Claim C9: on a formula whose outermost constructor is an equality,
`is_ceq` returns true for every environment, every left-hand side and every
right-hand side, and consequently the equality-passthrough pair survives the
extractor's filter. -/
theorem c9_eq_always_valid (env : environment) (t l r H : expr) :
    is_ceq env (expr.eq t l r) = true
      ∧ to_ceqs env (expr.eq t l r) H = [(expr.eq t l r, H)] :=
  ⟨is_ceq_eq_true env t l r, to_ceqs_eq_singleton env t l r H⟩

/-- Claim C7: an expression matching no specific extractor case (including a
conditional when the extension is not loaded) is wrapped as the singleton
`[(e = True, eqt_intro(e, H))]`, which always survives the filter. -/
theorem c7_default_eq_true (env : environment) (e H : expr)
    (h : default_shape env e = true) :
    to_ceqs env e H = [(expr.eq cBool e cTrue, mk_eqt_intro_th e H)] := by
  unfold to_ceqs
  cases e with
  | eq t l r => simp [default_shape] at h
  | neg a => simp [default_shape] at h
  | conj a b => simp [default_shape] at h
  | pi n d b => simp [default_shape] at h
  | ite c a b =>
      have himp : env.imported "if_then_else" = false := by
        simpa [default_shape] using h
      simp [to_ceqs_apply, himp, is_ceq_eq_true]
  | var i => simp [to_ceqs_apply, is_ceq_eq_true]
  | const n => simp [to_ceqs_apply, is_ceq_eq_true]
  | lam n d b => simp [to_ceqs_apply, is_ceq_eq_true]
  | app f a => simp [to_ceqs_apply, is_ceq_eq_true]

/-- Witness for C7: an opaque constant proposition is wrapped as `P = True`. -/
theorem c7_default_eq_true_witness :
    to_ceqs envFF (expr.const (nm "P")) (expr.const (nm "h"))
      = [(expr.eq cBool (expr.const (nm "P")) cTrue,
          mk_eqt_intro_th (expr.const (nm "P")) (expr.const (nm "h")))] :=
  c7_default_eq_true envFF (expr.const (nm "P")) (expr.const (nm "h")) (by decide)

/-- Counterexample to C3 as stated: on `if c then a else b` with the extension
loaded, the then-branch wrapper and the else-branch wrapper carry the SAME
generated hypothesis name (`Hc` twice) — the source draws a single fresh name
and shares it — so the two names are not distinct from each other. -/
theorem c3_counterexample :
    (to_ceqs envTT
        (expr.ite (expr.const (nm "c")) (expr.const (nm "a")) (expr.const (nm "b")))
        (expr.const (nm "h"))).map (fun p => head_binder_name p.1)
      = [g_Hc, g_Hc] := by
  have h1 : (to_ceqs_apply envTT
      (expr.ite (expr.const (nm "c")) (expr.const (nm "a")) (expr.const (nm "b")))
      (expr.const (nm "h")) 0).1
      = [(expr.pi g_Hc (expr.const (nm "c")) (expr.eq cBool (expr.const (nm "a")) cTrue),
          expr.lam g_Hc (expr.const (nm "c"))
            (mk_eqt_intro_th (expr.const (nm "a"))
              (mk_if_imp_then_th (expr.const (nm "c")) (expr.const (nm "a"))
                (expr.const (nm "b")) (expr.const (nm "h")) (expr.var 0)))),
         (expr.pi g_Hc (expr.neg (expr.const (nm "c")))
            (expr.eq cBool (expr.const (nm "b")) cTrue),
          expr.lam g_Hc (expr.neg (expr.const (nm "c")))
            (mk_eqt_intro_th (expr.const (nm "b"))
              (mk_if_imp_else_th (expr.const (nm "c")) (expr.const (nm "a"))
                (expr.const (nm "b")) (expr.const (nm "h")) (expr.var 0))))] := by
    simp [to_ceqs_apply, lift_free_vars, lift_aux, mk_aux_name, envTT]
  unfold to_ceqs
  rw [h1]
  decide

/-- Claim C3, amended: the conditional case draws a single fresh hypothesis
name (at the counter state reached after both branch recursions) and uses it
for BOTH the then-branch and else-branch wrappers, on formulas and proofs
alike; that name differs from every name generated at an earlier counter
state in the same call (the counter never decreases). -/
theorem c3_single_fresh_name (env : environment) (c a b H : expr) (idx : Nat)
    (himp : env.imported "if_then_else" = true) :
    idx ≤ ite_branch_counter env c a b H idx
      ∧ (∀ p ∈ (to_ceqs_apply env (expr.ite c a b) H idx).1,
          head_binder_name p.1 = (mk_aux_name (ite_branch_counter env c a b H idx)).1
            ∧ head_binder_name p.2 = (mk_aux_name (ite_branch_counter env c a b H idx)).1)
      ∧ (∀ i, i < ite_branch_counter env c a b H idx →
          (mk_aux_name i).1 ≠ (mk_aux_name (ite_branch_counter env c a b H idx)).1) := by
  refine ⟨?_, ?_, ?_⟩
  · exact le_trans
      (to_ceqs_apply_mono env (lift_free_vars a 1)
        (mk_if_imp_then_th (lift_free_vars c 1) (lift_free_vars a 1) (lift_free_vars b 1)
          (lift_free_vars H 1) (expr.var 0)) idx)
      (to_ceqs_apply_mono env (lift_free_vars b 1)
        (mk_if_imp_else_th (lift_free_vars c 1) (lift_free_vars a 1) (lift_free_vars b 1)
          (lift_free_vars H 1) (expr.var 0)) _)
  · intro p hp
    simp only [to_ceqs_apply, himp, if_true, List.mem_append, List.mem_map] at hp
    rcases hp with ⟨q, hq, rfl⟩ | ⟨q, hq, rfl⟩ <;> exact ⟨rfl, rfl⟩
  · intro i hi
    exact mk_aux_name_fst_ne i (ite_branch_counter env c a b H idx) hi

/-- Witness for the amended C3: the concrete conditional over opaque
constants, whose two outputs both carry the single name `Hc`. -/
theorem c3_single_fresh_name_witness :
    0 ≤ ite_branch_counter envTT (expr.const (nm "c")) (expr.const (nm "a"))
        (expr.const (nm "b")) (expr.const (nm "h")) 0
      ∧ head_binder_name
          (expr.pi g_Hc (expr.const (nm "c")) (expr.eq cBool (expr.const (nm "a")) cTrue))
          = (mk_aux_name (ite_branch_counter envTT (expr.const (nm "c")) (expr.const (nm "a"))
              (expr.const (nm "b")) (expr.const (nm "h")) 0)).1 :=
  ⟨(c3_single_fresh_name envTT (expr.const (nm "c")) (expr.const (nm "a"))
      (expr.const (nm "b")) (expr.const (nm "h")) 0 rfl).1,
   ((c3_single_fresh_name envTT (expr.const (nm "c")) (expr.const (nm "a"))
      (expr.const (nm "b")) (expr.const (nm "h")) 0 rfl).2.1
      (expr.pi g_Hc (expr.const (nm "c")) (expr.eq cBool (expr.const (nm "a")) cTrue),
        expr.lam g_Hc (expr.const (nm "c"))
          (mk_eqt_intro_th (expr.const (nm "a"))
            (mk_if_imp_then_th (expr.const (nm "c")) (expr.const (nm "a"))
              (expr.const (nm "b")) (expr.const (nm "h")) (expr.var 0))))
      (by simp [to_ceqs_apply, lift_free_vars, lift_aux, mk_aux_name, envTT])).1⟩

/-- Counterexample to C4 as stated: for `∀ x:N, c = d` the recursion on the
body yields a single unchanged equation, and the case analysis does return
the singleton `(e, H)`, but the top-level filter then discards it because
`is_ceq` rejects the equation (the binder `x` is not a proposition and does
not occur in the left-hand side), so `to_ceqs` returns `[]`, not `[(e, H)]`. -/
theorem c4_counterexample :
    (to_ceqs_apply envFF
        (expr.eq (expr.const (nm "N")) (expr.const (nm "c")) (expr.const (nm "d")))
        (expr.app (lift_free_vars (expr.const (nm "h")) 1) (expr.var 0)) 0).1
      = [(expr.eq (expr.const (nm "N")) (expr.const (nm "c")) (expr.const (nm "d")),
          expr.app (lift_free_vars (expr.const (nm "h")) 1) (expr.var 0))]
      ∧ to_ceqs envFF
          (expr.pi (nm "x") (expr.const (nm "N"))
            (expr.eq (expr.const (nm "N")) (expr.const (nm "c")) (expr.const (nm "d"))))
          (expr.const (nm "h")) = []
      ∧ to_ceqs envFF
          (expr.pi (nm "x") (expr.const (nm "N"))
            (expr.eq (expr.const (nm "N")) (expr.const (nm "c")) (expr.const (nm "d"))))
          (expr.const (nm "h"))
        ≠ [(expr.pi (nm "x") (expr.const (nm "N"))
              (expr.eq (expr.const (nm "N")) (expr.const (nm "c")) (expr.const (nm "d"))),
            expr.const (nm "h"))] := by
  have h1 : (to_ceqs_apply envFF
      (expr.pi (nm "x") (expr.const (nm "N"))
        (expr.eq (expr.const (nm "N")) (expr.const (nm "c")) (expr.const (nm "d"))))
      (expr.const (nm "h")) 0).1
      = [(expr.pi (nm "x") (expr.const (nm "N"))
            (expr.eq (expr.const (nm "N")) (expr.const (nm "c")) (expr.const (nm "d"))),
          expr.const (nm "h"))] := by
    simp [to_ceqs_apply, lift_free_vars, lift_aux]
  refine ⟨by simp [to_ceqs_apply], ?_, ?_⟩ <;> (unfold to_ceqs; rw [h1]; decide)

/-- Claim C4, amended: if the recursion on the binder body yields exactly one
candidate whose formula is `body` itself, and the short-circuited pair
`(e, H)` passes the validity checker, then `to_ceqs(env, e, H) = [(e, H)]`
with the original proof `H`, and re-applying `to_ceqs` to that output pair
yields the same singleton. -/
theorem c4_binder_short_circuit (env : environment) (x : name) (D body H H2 : expr)
    (hrec : (to_ceqs_apply env body (expr.app (lift_free_vars H 1) (expr.var 0)) 0).1
      = [(body, H2)])
    (hval : is_ceq env (expr.pi x D body) = true) :
    to_ceqs env (expr.pi x D body) H = [(expr.pi x D body, H)]
      ∧ ∀ p ∈ to_ceqs env (expr.pi x D body) H, to_ceqs env p.1 p.2 = [(p.1, p.2)] := by
  have happly : (to_ceqs_apply env (expr.pi x D body) H 0).1 = [(expr.pi x D body, H)] := by
    simp only [to_ceqs_apply, hrec]
    simp
  have hmain : to_ceqs env (expr.pi x D body) H = [(expr.pi x D body, H)] := by
    unfold to_ceqs
    rw [happly]
    simp [List.filter, hval]
  refine ⟨hmain, ?_⟩
  intro p hp
  rw [hmain] at hp
  simp only [List.mem_singleton] at hp
  subst hp
  exact hmain

/-- Witness for the amended C4: `∀ x:N, x = z` with every type a proposition
in the environment, so the short-circuited pair passes the checker. -/
theorem c4_binder_short_circuit_witness :
    to_ceqs envFT
        (expr.pi (nm "x") (expr.const (nm "N"))
          (expr.eq (expr.const (nm "N")) (expr.var 0) (expr.const (nm "z"))))
        (expr.const (nm "h"))
      = [(expr.pi (nm "x") (expr.const (nm "N"))
            (expr.eq (expr.const (nm "N")) (expr.var 0) (expr.const (nm "z"))),
          expr.const (nm "h"))] :=
  (c4_binder_short_circuit envFT (nm "x") (expr.const (nm "N"))
      (expr.eq (expr.const (nm "N")) (expr.var 0) (expr.const (nm "z")))
      (expr.const (nm "h"))
      (expr.app (lift_free_vars (expr.const (nm "h")) 1) (expr.var 0))
      (by simp [to_ceqs_apply]) (by decide)).1

/-- Counterexample to C5 as stated: when both conjuncts are conditionals (and
the extension is loaded), the combined call threads the fresh-name counter
through the left recursion into the right one, so the right conjunct's
wrappers are named `Hc.1`, while a standalone `to_ceqs` on the right conjunct
restarts the counter and names them `Hc`; the resulting lists differ. -/
theorem c5_counterexample :
    to_ceqs envTT
        (expr.conj
          (expr.ite (expr.const (nm "c")) (expr.const (nm "p")) (expr.const (nm "q")))
          (expr.ite (expr.const (nm "c")) (expr.const (nm "p")) (expr.const (nm "q"))))
        (expr.const (nm "h"))
      ≠ to_ceqs envTT
          (expr.ite (expr.const (nm "c")) (expr.const (nm "p")) (expr.const (nm "q")))
          (mk_and_eliml_th
            (expr.ite (expr.const (nm "c")) (expr.const (nm "p")) (expr.const (nm "q")))
            (expr.ite (expr.const (nm "c")) (expr.const (nm "p")) (expr.const (nm "q")))
            (expr.const (nm "h")))
          ++ to_ceqs envTT
              (expr.ite (expr.const (nm "c")) (expr.const (nm "p")) (expr.const (nm "q")))
              (mk_and_elimr_th
                (expr.ite (expr.const (nm "c")) (expr.const (nm "p")) (expr.const (nm "q")))
                (expr.ite (expr.const (nm "c")) (expr.const (nm "p")) (expr.const (nm "q")))
                (expr.const (nm "h"))) := by
  unfold to_ceqs
  simp only [to_ceqs_apply, lift_free_vars, lift_aux, mk_aux_name, envTT]
  decide

/-- Claim C5, amended: for `e = Conjunction(a1, a2)` the result of `to_ceqs`
is the concatenation of the two conjuncts' results, left before right,
provided the left recursion leaves the fresh-name counter at its initial
value 0 (in particular whenever it draws no fresh hypothesis names); in
general the combined call computes the right-hand results with the counter
continued from the left recursion rather than restarted. -/
theorem c5_conj_concat (env : environment) (a1 a2 H : expr)
    (h0 : (to_ceqs_apply env a1 (mk_and_eliml_th a1 a2 H) 0).2 = 0) :
    to_ceqs env (expr.conj a1 a2) H
      = to_ceqs env a1 (mk_and_eliml_th a1 a2 H)
          ++ to_ceqs env a2 (mk_and_elimr_th a1 a2 H) := by
  unfold to_ceqs
  simp only [to_ceqs_apply]
  rw [h0, List.filter_append]

/-- Witness for the amended C5: a conjunction of a negation and an opaque
proposition (no fresh names drawn on the left). -/
theorem c5_conj_concat_witness :
    to_ceqs envFF
        (expr.conj (expr.neg (expr.const (nm "P"))) (expr.const (nm "Q")))
        (expr.const (nm "h"))
      = to_ceqs envFF (expr.neg (expr.const (nm "P")))
          (mk_and_eliml_th (expr.neg (expr.const (nm "P"))) (expr.const (nm "Q"))
            (expr.const (nm "h")))
          ++ to_ceqs envFF (expr.const (nm "Q"))
              (mk_and_elimr_th (expr.neg (expr.const (nm "P"))) (expr.const (nm "Q"))
                (expr.const (nm "h"))) :=
  c5_conj_concat envFF (expr.neg (expr.const (nm "P"))) (expr.const (nm "Q"))
    (expr.const (nm "h")) (by simp [to_ceqs_apply])

theorem binder_telescope_mk_pis (bs : List (name × expr)) (t l r : expr) :
    binder_telescope (mk_pis bs (expr.eq t l r)) = (bs, expr.eq t l r) := by
  induction bs with
  | nil => rfl
  | cons hd tl ih =>
      obtain ⟨n, d⟩ := hd
      simp [mk_pis, binder_telescope, ih]

/-- Claim C10: in the left-hand-side traversal of `is_ceq`, a variable whose
depth-adjusted index lies beyond all stripped outer binders leaves the flag
buffer unchanged (it neither resolves a flag nor causes rejection), and for
an equation whose left-hand side is such a free variable, validity is
decided by the stripped binders' initial flags alone. -/
theorem c10_free_var_ignored :
    (∀ (o i : Nat) (s : List Bool), o + s.length ≤ i → mark_lhs (expr.var i) o s = s)
      ∧ (∀ (env : environment) (bs : List (name × expr)) (t r : expr) (k : Nat),
          is_ceq env (mk_pis bs (expr.eq t (expr.var (bs.length + k)) r))
            = (init_flags env bs context.empty).all (fun b => b)) := by
  have hmv : ∀ (o i : Nat) (s : List Bool), o + s.length ≤ i → mark_var o i s = s := by
    intro o i s h
    unfold mark_var
    rw [if_pos (by omega), if_neg (by omega)]
  refine ⟨fun o i s h => hmv o i s h, ?_⟩
  intro env bs t r k
  have hflen : (init_flags env bs context.empty).length = bs.length :=
    init_flags_length env bs context.empty
  simp only [is_ceq, strip_ceq_spec, binder_telescope_mk_pis, List.nil_append]
  simp only [mark_lhs]
  rw [hmv 0 (bs.length + k) (init_flags env bs context.empty) (by omega)]

/-- Witness for C10: a free variable is ignored by the marking step, and a
one-binder equation with free-variable left-hand side is decided by the
binder's initial flag. -/
theorem c10_free_var_ignored_witness :
    mark_lhs (expr.var 5) 1 [true] = [true]
      ∧ is_ceq envFT (mk_pis [(nm "x", expr.const (nm "N"))]
          (expr.eq (expr.const (nm "N")) (expr.var 1) (expr.const (nm "z"))))
        = (init_flags envFT [(nm "x", expr.const (nm "N"))] context.empty).all
            (fun b => b) :=
  ⟨c10_free_var_ignored.1 1 5 [true] (by decide),
   c10_free_var_ignored.2 envFT [(nm "x", expr.const (nm "N"))]
      (expr.const (nm "N")) (expr.const (nm "z")) 0⟩
